import Mathlib

/-!
# Verification of the stochastic surface stepper (EW/KPZ notebook)

Shallow embedding, in exact rational arithmetic, of the algorithmic core of
the film-simulation notebook: the Edwards-Wilkinson and Kardar-Parisi-Zhang
time loops, the discrete Laplacian they apply (scipy.ndimage.laplace with its
default boundary mode), the discrete gradient (np.gradient), and the bounded
signed noise construction.
-/

namespace FilmSim

/-- A height field: heights indexed by row and column.  An L×L grid reads
indices below L; this embeds the notebook's 2-D numpy float array in exact
arithmetic. -/
def Field : Type := ℕ → ℕ → ℚ

/-- The all-zero noise slice. -/
def zeroField : Field := fun _ _ => 0

/-- Boundary index handling of scipy.ndimage in its default mode, reflect:
for a radius-1 stencil, an index one step outside the grid is replaced by the
nearest edge index (index -1 reads cell 0, index L reads cell L-1). -/
def reflectIdx (L : ℕ) (i : ℤ) : ℕ :=
  if i < 0 then 0 else if (L : ℤ) ≤ i then L - 1 else i.toNat

/-- The second-difference correlation of the 1-D kernel [1, -2, 1] along
axis 0, as scipy.ndimage.correlate1d applies it inside laplace (default
mode reflect). -/
def lapAxis0 (L : ℕ) (F : Field) (i j : ℕ) : ℚ :=
  F (reflectIdx L ((i : ℤ) - 1)) j - 2 * F i j + F (reflectIdx L ((i : ℤ) + 1)) j

/-- The second-difference correlation of the 1-D kernel [1, -2, 1] along
axis 1. -/
def lapAxis1 (L : ℕ) (F : Field) (i j : ℕ) : ℚ :=
  F i (reflectIdx L ((j : ℤ) - 1)) - 2 * F i j + F i (reflectIdx L ((j : ℤ) + 1))

/-- scipy.ndimage.laplace: the sum over both axes of the second-difference
correlations, with the default boundary mode (reflect). -/
def laplace (L : ℕ) (F : Field) (i j : ℕ) : ℚ :=
  lapAxis0 L F i j + lapAxis1 L F i j

/-- The 1-D rule of np.gradient with the default edge order 1: central
difference in the interior, one-sided difference at the two ends of the
axis. -/
def npGrad (L : ℕ) (g : ℕ → ℚ) (i : ℕ) : ℚ :=
  if i = 0 then g 1 - g 0
  else if i + 1 = L then g i - g (i - 1)
  else (g (i + 1) - g (i - 1)) / 2

/-- np.gradient along axis 0: the 1-D rule applied down each column. -/
def grad0 (L : ℕ) (F : Field) (i j : ℕ) : ℚ :=
  npGrad L (fun r => F r j) i

/-- np.gradient along axis 1: the 1-D rule applied along each row. -/
def grad1 (L : ℕ) (F : Field) (i j : ℕ) : ℚ :=
  npGrad L (F i) j

/-- The squared-gradient term of the KPZ cells:
g2_film = g_film[0]**2 + g_film[1]**2. -/
def gradSq (L : ℕ) (F : Field) (i j : ℕ) : ℚ :=
  grad0 L F i j ^ 2 + grad1 L F i j ^ 2

/-- Loop body of the Edwards-Wilkinson cells (diagnostic-tuesday with zero
noise, collectible-bearing with noise):
film[i] = film[i-1] + (v*laplace(film[i-1]) + noise[i]). -/
def stepEW (L : ℕ) (F : Field) (v : ℚ) (noise : Field) : Field :=
  fun i j => F i j + (v * laplace L F i j + noise i j)

/-- Loop body of the KPZ cells (clinical-prior with zero noise,
removed-nothing with noise):
film[i] = film[i-1] + (v*l_film + l/2*g2_film + noise[i]). -/
def stepKPZ (L : ℕ) (F : Field) (v lam : ℚ) (noise : Field) : Field :=
  fun i j => F i j + (v * laplace L F i j + lam / 2 * gradSq L F i j + noise i j)

/-- Total mass of an L×L field: np.sum over all cells. -/
def totalMass (L : ℕ) (F : Field) : ℚ :=
  ∑ i ∈ Finset.range L, ∑ j ∈ Finset.range L, F i j

/-- The grid total of the squared-gradient term. -/
def totalGradSq (L : ℕ) (F : Field) : ℚ :=
  ∑ i ∈ Finset.range L, ∑ j ∈ Finset.range L, gradSq L F i j

/-- Modelled from the spec: the 5-point finite-difference stencil with
periodic (toroidal) wraparound at the grid edges, as the specification
describes the Laplacian — at an edge cell the stencil's out-of-grid
neighbour is the value from the opposite edge of the grid.  This definition
follows the spec's words only; it is compared against `laplace`, the
embedding of what the notebook actually computes. -/
def laplaceWrapSpec (L : ℕ) (F : Field) (i j : ℕ) : ℚ :=
  F ((i + L - 1) % L) j + F ((i + 1) % L) j +
    F i ((j + L - 1) % L) + F i ((j + 1) % L) - 4 * F i j

/-- A concrete 2×2 field used at counterexamples and witnesses:
rows (0, 1) and (2, 3). -/
def exField : Field := fun i j =>
  if i = 0 then (if j = 0 then 0 else 1) else (if j = 0 then 2 else 3)

/-- The constant field of height c. -/
def constField (c : ℚ) : Field := fun _ _ => c

/-- The end-to-end scenario field: 4×4 of 5.0 with the cell (1,1) perturbed
upward to 10.0. -/
def pertField : Field := fun i j => if i = 1 ∧ j = 1 then 10 else 5

/-- One L×L slice of the bounded signed noise before shuffling, flattened in
C order.  Embeds noise = -np.ones((L,L)); noise[L//2:, :] = 1 — rows below
L/2 hold -1, rows from L/2 on hold 1. -/
def sliceList (L : ℕ) : List ℚ :=
  (List.range L).flatMap (fun r => List.replicate L (if L / 2 ≤ r then 1 else -1))

/-- The flattened tail noise[1:] of the (T,L,L) bounded noise block, the part
the notebook's shuffler permutes as one flat array: T-1 consecutive copies of
the slice pattern. -/
def tailNoiseList (L T : ℕ) : List ℚ :=
  (List.range (T - 1)).flatMap (fun _ => sliceList L)

/-- The t-th L×L time slice within a flattened tail (0-based within the tail:
slice t here is noise[t+1] of the notebook). -/
def sliceOf (L : ℕ) (s : List ℚ) (t : ℕ) : List ℚ :=
  (s.drop (t * (L * L))).take (L * L)

/-- View a list-of-rows array as a field (out-of-range reads give 0; all
stated properties only read in-range cells). -/
def toField (f : List (List ℚ)) : Field := fun i j => (f.getD i []).getD j 0

/-- The array is a square L×L grid with positive L. -/
def isSquare (f : List (List ℚ)) : Bool :=
  decide (0 < f.length) && f.all (fun row => row.length == f.length)

/-- The noise array has exactly the shape of the field array. -/
def sameShape (f nz : List (List ℚ)) : Bool :=
  (nz.length == f.length) && (List.zip f nz).all (fun p => p.2.length == p.1.length)

/-- The error surfaced on invalid stepper input. -/
inductive StepError where
  | invalidInput

/-- Modelled from the spec: the notebooks inline the update rule with no
validation, so the validating stepper of §4.1/§7 is not present under src/;
this embeds its contract — fail with InvalidInput exactly when the field is
not square (or has non-positive dimensions) or the noise shape mismatches,
otherwise return the new field, leaving the input untouched. -/
def stepChecked (f : List (List ℚ)) (v lam : ℚ) (nz : List (List ℚ)) :
    Except StepError (List (List ℚ)) :=
  if isSquare f && sameShape f nz then
    Except.ok ((List.range f.length).map (fun i =>
      (List.range f.length).map (fun j =>
        stepKPZ f.length (toField f) v lam (toField nz) i j)))
  else
    Except.error StepError.invalidInput

/-- The three noise kinds of the noise generator. -/
inductive NoiseKind where
  | zero
  | boundedSigned
  | gaussian

/-- Modelled from the spec: numpy's default_rng(seed), used for the shuffler
and the normal draws, is external library code; its contract (and the spec's
reproducibility guarantee) makes a seeded generator a deterministic function
of its seed.  We model it as a seed-indexed shuffle (producing a permutation
of its input list) together with a seed-indexed family of normal draws. -/
structure SeededRng where
  shufflePerm : ℕ → List ℚ → List ℚ
  shuffle_perm : ∀ seed l, List.Perm (shufflePerm seed l) l
  normalDraw : ℕ → ℕ → ℚ

/-- The noise generator: all zeros, the shuffled half-(-1)/half-(+1) block,
or L·L seeded normal draws. -/
def generateNoise (rng : SeededRng) (L : ℕ) (kind : NoiseKind) (seed : ℕ) :
    List ℚ :=
  match kind with
  | NoiseKind.zero => List.replicate (L * L) 0
  | NoiseKind.boundedSigned => rng.shufflePerm seed (sliceList L)
  | NoiseKind.gaussian => (List.range (L * L)).map (rng.normalDraw seed)

/-- A concrete seeded generator (identity shuffle, zero draws), used only to
instantiate witnesses. -/
def idRng : SeededRng where
  shufflePerm := fun _ l => l
  shuffle_perm := fun _ l => List.Perm.refl l
  normalDraw := fun _ _ => 0

/-! ## Mass conservation of the reflected second difference -/

theorem reflectIdx_sub_one (L i : ℕ) (h : i < L) :
    reflectIdx L ((i : ℤ) - 1) = i - 1 := by
  unfold reflectIdx
  split
  · omega
  · split <;> omega

theorem reflectIdx_add_one (L i : ℕ) (h : i < L) :
    reflectIdx L ((i : ℤ) + 1) = min (i + 1) (L - 1) := by
  unfold reflectIdx
  split
  · omega
  · split <;> omega

/-- Sum over one axis of the shifted-down samples: the edge sample is
duplicated, the far sample dropped. -/
theorem sum_shift_down (m : ℕ) (g : ℕ → ℚ) :
    ∑ i ∈ Finset.range (m + 1), g (i - 1) =
      g 0 + ∑ i ∈ Finset.range m, g i := by
  rw [Finset.sum_range_succ']
  simp [add_comm]

/-- Sum over one axis of the shifted-up samples clamped at the top edge. -/
theorem sum_shift_up (m : ℕ) (g : ℕ → ℚ) :
    ∑ i ∈ Finset.range (m + 1), g (min (i + 1) m) =
      (∑ i ∈ Finset.range (m + 1), g i) - g 0 + g m := by
  rw [Finset.sum_range_succ]
  have hcong : ∑ i ∈ Finset.range m, g (min (i + 1) m) =
      ∑ i ∈ Finset.range m, g (i + 1) := by
    refine Finset.sum_congr rfl ?_
    intro i hi
    have : i + 1 ≤ m := by
      have := Finset.mem_range.mp hi
      omega
    simp [Nat.min_eq_left this]
  rw [hcong]
  have h1 : ∑ i ∈ Finset.range (m + 1), g i =
      (∑ i ∈ Finset.range m, g (i + 1)) + g 0 := Finset.sum_range_succ' g m
  have hmin : min (m + 1) m = m := by omega
  rw [hmin, h1]
  ring

/-- The 1-D second difference with reflected boundary sums to zero along
the axis. -/
theorem sum_secondDiff (L : ℕ) (g : ℕ → ℚ) :
    ∑ i ∈ Finset.range L,
      (g (reflectIdx L ((i : ℤ) - 1)) - 2 * g i + g (reflectIdx L ((i : ℤ) + 1))) = 0 := by
  cases L with
  | zero => simp
  | succ m =>
      have hcong : ∀ i ∈ Finset.range (m + 1),
          g (reflectIdx (m + 1) ((i : ℤ) - 1)) - 2 * g i +
              g (reflectIdx (m + 1) ((i : ℤ) + 1)) =
            g (i - 1) - 2 * g i + g (min (i + 1) (m + 1 - 1)) := by
        intro i hi
        have hi' : i < m + 1 := Finset.mem_range.mp hi
        rw [reflectIdx_sub_one _ _ hi', reflectIdx_add_one _ _ hi']
      rw [Finset.sum_congr rfl hcong]
      simp only [Nat.add_sub_cancel]
      have hsplit : ∑ i ∈ Finset.range (m + 1),
          (g (i - 1) - 2 * g i + g (min (i + 1) m)) =
          (∑ i ∈ Finset.range (m + 1), g (i - 1)) -
            2 * (∑ i ∈ Finset.range (m + 1), g i) +
            ∑ i ∈ Finset.range (m + 1), g (min (i + 1) m) := by
        rw [Finset.sum_add_distrib, Finset.sum_sub_distrib, Finset.mul_sum]
      rw [hsplit, sum_shift_down, sum_shift_up]
      have hlast : ∑ i ∈ Finset.range (m + 1), g i =
          (∑ i ∈ Finset.range m, g i) + g m := Finset.sum_range_succ g m
      rw [hlast]
      ring

/-- The grid sum of the axis-0 second difference vanishes. -/
theorem sum_lapAxis0 (L : ℕ) (F : Field) :
    ∑ i ∈ Finset.range L, ∑ j ∈ Finset.range L, lapAxis0 L F i j = 0 := by
  rw [Finset.sum_comm]
  refine Finset.sum_eq_zero ?_
  intro j _
  exact sum_secondDiff L (fun i => F i j)

/-- The grid sum of the axis-1 second difference vanishes. -/
theorem sum_lapAxis1 (L : ℕ) (F : Field) :
    ∑ i ∈ Finset.range L, ∑ j ∈ Finset.range L, lapAxis1 L F i j = 0 := by
  refine Finset.sum_eq_zero ?_
  intro i _
  exact sum_secondDiff L (fun j => F i j)

/-- The discrete Laplacian used by the notebook sums to zero over the grid. -/
theorem sum_laplace (L : ℕ) (F : Field) :
    ∑ i ∈ Finset.range L, ∑ j ∈ Finset.range L, laplace L F i j = 0 := by
  have h : ∑ i ∈ Finset.range L, ∑ j ∈ Finset.range L, laplace L F i j =
      (∑ i ∈ Finset.range L, ∑ j ∈ Finset.range L, lapAxis0 L F i j) +
        ∑ i ∈ Finset.range L, ∑ j ∈ Finset.range L, lapAxis1 L F i j := by
    rw [← Finset.sum_add_distrib]
    refine Finset.sum_congr rfl ?_
    intro i _
    rw [← Finset.sum_add_distrib]
    exact Finset.sum_congr rfl fun j _ => rfl
  rw [h, sum_lapAxis0, sum_lapAxis1, add_zero]

/-- The Edwards-Wilkinson loop body with zero noise preserves the grid
total (shared helper). -/
theorem stepEW_mass (L : ℕ) (F : Field) (v : ℚ) :
    totalMass L (stepEW L F v zeroField) = totalMass L F := by
  unfold totalMass stepEW zeroField
  have h : ∀ i ∈ Finset.range L,
      ∑ j ∈ Finset.range L, (F i j + (v * laplace L F i j + 0)) =
        (∑ j ∈ Finset.range L, F i j) + v * ∑ j ∈ Finset.range L, laplace L F i j := by
    intro i _
    rw [Finset.mul_sum, ← Finset.sum_add_distrib]
    refine Finset.sum_congr rfl ?_
    intro j _
    ring
  rw [Finset.sum_congr rfl h, Finset.sum_add_distrib]
  have h2 : ∑ i ∈ Finset.range L, v * ∑ j ∈ Finset.range L, laplace L F i j =
      v * ∑ i ∈ Finset.range L, ∑ j ∈ Finset.range L, laplace L F i j := by
    rw [Finset.mul_sum]
  rw [h2, sum_laplace, mul_zero, add_zero]

/-- C1: For every L×L field F and every surface tension v, one step of the
λ=0 stepper (the Edwards-Wilkinson loop body) with an all-zero noise slice
preserves the total mass exactly. -/
theorem ew_step_preserves_mass (L : ℕ) (F : Field) (v : ℚ) :
    totalMass L (stepEW L F v zeroField) = totalMass L F :=
  stepEW_mass L F v

/-! ## The update rule -/

/-- C2: the stepper computes exactly
newField = field + ν·Laplacian(field) + (λ/2)·(sum of squared partial
derivatives along both axes) + noise, as one explicit Euler step of size 1,
and at λ = 0 it coincides with the Edwards-Wilkinson loop body, in which the
gradient-squared term is absent. -/
theorem kpz_step_update_rule (L : ℕ) (F : Field) (v lam : ℚ) (noise : Field)
    (i j : ℕ) :
    stepKPZ L F v lam noise i j =
      F i j + v * laplace L F i j +
        lam / 2 * (grad0 L F i j ^ 2 + grad1 L F i j ^ 2) + noise i j ∧
    stepKPZ L F v 0 noise i j = stepEW L F v noise i j := by
  constructor
  · unfold stepKPZ gradSq
    ring
  · unfold stepKPZ stepEW
    ring

/-! ## Boundary handling of the Laplacian -/

/-- C3 counterexample: the Laplacian the notebook applies
(scipy.ndimage.laplace in its default mode) does not use periodic
wraparound: on the concrete 2×2 field with rows (0,1),(2,3), at the edge
cell (0,0) it disagrees with the spec's periodic 5-point stencil. -/
theorem laplace_not_periodic_cex :
    laplace 2 exField 0 0 ≠ laplaceWrapSpec 2 exField 0 0 := by
  norm_num [laplace, lapAxis0, lapAxis1, reflectIdx, laplaceWrapSpec, exField, Int.toNat_ofNat]

/-- C3 amended: at every cell of the grid the applied Laplacian equals the
5-point stencil in which an out-of-grid neighbour is replaced by the nearest
edge cell itself (scipy's default reflect mode) — not by the value from the
opposite edge. -/
theorem laplace_reflect_stencil (L : ℕ) (F : Field) (i j : ℕ)
    (hi : i < L) (hj : j < L) :
    laplace L F i j =
      F (i - 1) j + F (min (i + 1) (L - 1)) j +
        F i (j - 1) + F i (min (j + 1) (L - 1)) - 4 * F i j := by
  unfold laplace lapAxis0 lapAxis1
  rw [reflectIdx_sub_one L i hi, reflectIdx_add_one L i hi,
    reflectIdx_sub_one L j hj, reflectIdx_add_one L j hj]
  ring

/-- Witness for the amended C3 at the concrete edge cell (0,0) of a 2×2
grid. -/
theorem laplace_reflect_stencil_witness :
    0 < 2 ∧
      laplace 2 exField 0 0 =
        exField (0 - 1) 0 + exField (min (0 + 1) (2 - 1)) 0 +
          exField 0 (0 - 1) + exField 0 (min (0 + 1) (2 - 1)) -
          4 * exField 0 0 :=
  ⟨by decide, laplace_reflect_stencil 2 exField 0 0 (by decide) (by decide)⟩

/-! ## Determinism -/

/-- C7: the stepper is deterministic: two calls on identical inputs (same
field, ν, λ, noise slice) return identical outputs; in this functional
embedding of the loop body the input field is never written, the result is
a fresh array. -/
theorem step_deterministic (L : ℕ) (F₁ F₂ : Field) (v₁ v₂ lam₁ lam₂ : ℚ)
    (n₁ n₂ : Field) (hF : F₁ = F₂) (hv : v₁ = v₂) (hlam : lam₁ = lam₂)
    (hn : n₁ = n₂) :
    stepKPZ L F₁ v₁ lam₁ n₁ = stepKPZ L F₂ v₂ lam₂ n₂ := by
  rw [hF, hv, hlam, hn]

/-- Witness for C7 at a concrete field and parameters. -/
theorem step_deterministic_witness :
    exField = exField ∧
      stepKPZ 2 exField 1 1 zeroField = stepKPZ 2 exField 1 1 zeroField :=
  ⟨rfl, step_deterministic 2 exField exField 1 1 1 1 zeroField zeroField
    rfl rfl rfl rfl⟩

/-! ## Flat fields and a perturbed cell -/

/-- A constant field has zero Laplacian at every cell. -/
theorem laplace_const (L : ℕ) (c : ℚ) (i j : ℕ) :
    laplace L (constField c) i j = 0 := by
  unfold laplace lapAxis0 lapAxis1 constField
  ring

/-- C8: every constant field has zero Laplacian everywhere and is unchanged
by one λ=0, zero-noise step; and on the 4×4 all-5.0 field with cell (1,1)
perturbed to 10.0 the Laplacian is negative at the perturbed cell, positive
at its four neighbours, and the step with ν=0.1 preserves the total sum
exactly. -/
theorem flat_field_and_perturbation :
    (∀ L : ℕ, ∀ c : ℚ, ∀ i j : ℕ, laplace L (constField c) i j = 0) ∧
    (∀ L : ℕ, ∀ c v : ℚ, ∀ i j : ℕ,
      stepEW L (constField c) v zeroField i j = constField c i j) ∧
    laplace 4 pertField 1 1 < 0 ∧
    (0 < laplace 4 pertField 0 1 ∧ 0 < laplace 4 pertField 2 1 ∧
      0 < laplace 4 pertField 1 0 ∧ 0 < laplace 4 pertField 1 2) ∧
    totalMass 4 (stepEW 4 pertField (1 / 10) zeroField) = totalMass 4 pertField := by
  refine ⟨laplace_const, ?_, ?_, ?_, ?_⟩
  · intro L c v i j
    unfold stepEW zeroField
    rw [laplace_const]
    unfold constField
    ring
  · simp only [laplace, lapAxis0, lapAxis1, reflectIdx, pertField]
    simp
    norm_num
  · refine ⟨?_, ?_, ?_, ?_⟩ <;>
      · simp only [laplace, lapAxis0, lapAxis1, reflectIdx, pertField]
        simp
        norm_num
  · exact stepEW_mass 4 pertField (1 / 10)

/-! ## The bounded signed noise -/

/-- Sum of a flatMap over an initial segment of the naturals, as a Finset
sum of the block sums. -/
theorem list_range_flatMap_sum (n : ℕ) (g : ℕ → List ℚ) :
    ((List.range n).flatMap g).sum = ∑ r ∈ Finset.range n, (g r).sum := by
  induction n with
  | zero => simp
  | succ m ih =>
      rw [List.range_succ, List.flatMap_append, List.sum_append, ih,
        Finset.sum_range_succ]
      simp

/-- For even L the pre-shuffle slice pattern (half -1, half 1) sums to
zero. -/
theorem sliceList_sum (L : ℕ) (hL : L % 2 = 0) : (sliceList L).sum = 0 := by
  obtain ⟨m, rfl⟩ : ∃ m, L = 2 * m := ⟨L / 2, by omega⟩
  unfold sliceList
  rw [list_range_flatMap_sum]
  have hterm : ∀ r ∈ Finset.range (2 * m),
      (List.replicate (2 * m) (if 2 * m / 2 ≤ r then (1 : ℚ) else -1)).sum =
        if m ≤ r then ((2 * m : ℕ) : ℚ) else -((2 * m : ℕ) : ℚ) := by
    intro r _
    have hdiv : 2 * m / 2 = m := by omega
    rw [hdiv, List.sum_replicate]
    split_ifs <;> simp [nsmul_eq_mul]
  rw [Finset.sum_congr rfl hterm, Finset.range_eq_Ico,
    ← Finset.sum_Ico_consecutive _ (Nat.zero_le m) (by omega : m ≤ 2 * m)]
  have h1 : ∀ r ∈ Finset.Ico 0 m,
      (if m ≤ r then ((2 * m : ℕ) : ℚ) else -((2 * m : ℕ) : ℚ)) =
        -((2 * m : ℕ) : ℚ) := by
    intro r hr
    have := Finset.mem_Ico.mp hr
    rw [if_neg (by omega)]
  have h2 : ∀ r ∈ Finset.Ico m (2 * m),
      (if m ≤ r then ((2 * m : ℕ) : ℚ) else -((2 * m : ℕ) : ℚ)) =
        ((2 * m : ℕ) : ℚ) := by
    intro r hr
    have := Finset.mem_Ico.mp hr
    rw [if_pos (by omega)]
  rw [Finset.sum_congr rfl h1, Finset.sum_congr rfl h2, Finset.sum_const,
    Finset.sum_const, Nat.card_Ico, Nat.card_Ico]
  have h3 : 2 * m - m = m := by omega
  rw [h3, Nat.sub_zero]
  simp [nsmul_eq_mul]

/-- The whole flattened tail noise[1:] sums to zero before shuffling, for
even L. -/
theorem tailNoiseList_sum (L T : ℕ) (hL : L % 2 = 0) :
    (tailNoiseList L T).sum = 0 := by
  unfold tailNoiseList
  rw [list_range_flatMap_sum]
  refine Finset.sum_eq_zero ?_
  intro t _
  exact sliceList_sum L hL

/-- C4 counterexample: a uniform random permutation of the jointly shuffled
tail noise[1:] (here L = 2, T = 3) can leave an individual consumed L×L
slice with a non-zero sum: the explicit rearrangement below is a permutation
of the constructed block, yet its first consumed slice sums to 2, not 0. -/
theorem bounded_noise_slice_sum_cex :
    List.Perm ([1, 1, 1, -1, -1, -1, -1, 1] : List ℚ) (tailNoiseList 2 3) ∧
      (sliceOf 2 ([1, 1, 1, -1, -1, -1, -1, 1] : List ℚ) 0).sum ≠ 0 := by
  constructor
  · have p1 : List.Perm ([-1, -1] ++ 1 :: [1, -1, -1, 1, 1] : List ℚ)
        (1 :: ([-1, -1] ++ [1, -1, -1, 1, 1])) := List.perm_middle
    have p2 : List.Perm ([-1, -1] ++ 1 :: [-1, -1, 1, 1] : List ℚ)
        (1 :: ([-1, -1] ++ [-1, -1, 1, 1])) := List.perm_middle
    have p3 : List.Perm ([-1, -1, -1, -1] ++ 1 :: [1] : List ℚ)
        (1 :: ([-1, -1, -1, -1] ++ [1])) := List.perm_middle
    exact (p1.trans (List.Perm.cons 1 (p2.trans (List.Perm.cons 1 p3)))).symm
  · norm_num [sliceOf]

/-- C4 amended: after the joint shuffle of noise[1:], what is guaranteed for
even L is that the concatenation of all consumed slices sums to exactly
zero, for every permutation the shuffler may produce; an individual slice
need not sum to zero. -/
theorem bounded_noise_total_sum_zero (L T : ℕ) (s : List ℚ)
    (hL : L % 2 = 0) (hs : List.Perm s (tailNoiseList L T)) : s.sum = 0 := by
  rw [hs.sum_eq]
  exact tailNoiseList_sum L T hL

/-- Witness for the amended C4 at L = 2, T = 3 and the identity
permutation. -/
theorem bounded_noise_total_sum_zero_witness :
    2 % 2 = 0 ∧ List.Perm (tailNoiseList 2 3) (tailNoiseList 2 3) ∧
      (tailNoiseList 2 3).sum = 0 :=
  ⟨rfl, List.Perm.refl _,
    bounded_noise_total_sum_zero 2 3 _ rfl (List.Perm.refl _)⟩

/-- C5: for every even-length half-(-1)/half-(+1) array of the bounded
signed construction and every permutation the seeded shuffle may produce,
the sum of the shuffled array is exactly zero: a permutation does not change
the multiset of entries. -/
theorem bounded_choice_sum_zero (L : ℕ) (s : List ℚ)
    (hL : L % 2 = 0) (hs : List.Perm s (sliceList L)) : s.sum = 0 := by
  rw [hs.sum_eq]
  exact sliceList_sum L hL

/-- Witness for C5 at L = 2 with the identity permutation. -/
theorem bounded_choice_sum_zero_witness :
    2 % 2 = 0 ∧ List.Perm (sliceList 2) (sliceList 2) ∧ (sliceList 2).sum = 0 :=
  ⟨rfl, List.Perm.refl _, bounded_choice_sum_zero 2 _ rfl (List.Perm.refl _)⟩

/-! ## Input validation -/

/-- C6: the checked stepper fails, with InvalidInput as the only error
outcome, exactly when the field is not square (or has non-positive
dimensions) or the noise shape differs from the field shape; being a pure
function, it performs no partial update on failure. -/
theorem stepChecked_invalid_iff (f nz : List (List ℚ)) (v lam : ℚ) :
    stepChecked f v lam nz = Except.error StepError.invalidInput ↔
      ¬(isSquare f = true ∧ sameShape f nz = true) := by
  unfold stepChecked
  by_cases h : (isSquare f && sameShape f nz) = true
  · rw [if_pos h]
    simp only [Bool.and_eq_true] at h
    simp [h.1, h.2]
  · rw [if_neg h]
    simp only [Bool.and_eq_true] at h
    exact iff_of_true rfl h

/-! ## Reproducibility of the noise generator -/

/-- C9: the noise generator is reproducible: for every kind, two calls with
the same seed produce identical arrays (the seeded generator is a
deterministic function of its seed). -/
theorem generateNoise_reproducible (rng : SeededRng) (L : ℕ)
    (kind : NoiseKind) (s₁ s₂ : ℕ) (h : s₁ = s₂) :
    generateNoise rng L kind s₁ = generateNoise rng L kind s₂ := by
  rw [h]

/-- Witness for C9 at a concrete generator, size, kind and seed. -/
theorem generateNoise_reproducible_witness :
    (5 : ℕ) = 5 ∧
      generateNoise idRng 2 NoiseKind.gaussian 5 =
        generateNoise idRng 2 NoiseKind.gaussian 5 :=
  ⟨rfl, generateNoise_reproducible idRng 2 NoiseKind.gaussian 5 5 rfl⟩

/-! ## Mass growth of the KPZ step -/

/-- The KPZ loop body with zero noise changes the grid total by exactly
(λ/2) times the grid total of the squared gradient. -/
theorem stepKPZ_mass (L : ℕ) (F : Field) (v lam : ℚ) :
    totalMass L (stepKPZ L F v lam zeroField) =
      totalMass L F + lam / 2 * totalGradSq L F := by
  unfold totalMass stepKPZ zeroField totalGradSq
  have h : ∀ i ∈ Finset.range L,
      ∑ j ∈ Finset.range L,
          (F i j + (v * laplace L F i j + lam / 2 * gradSq L F i j + 0)) =
        (∑ j ∈ Finset.range L, F i j) +
          v * (∑ j ∈ Finset.range L, laplace L F i j) +
          lam / 2 * ∑ j ∈ Finset.range L, gradSq L F i j := by
    intro i _
    rw [Finset.mul_sum, Finset.mul_sum, ← Finset.sum_add_distrib,
      ← Finset.sum_add_distrib]
    refine Finset.sum_congr rfl ?_
    intro j _
    ring
  rw [Finset.sum_congr rfl h, Finset.sum_add_distrib, Finset.sum_add_distrib]
  have h2 : ∑ i ∈ Finset.range L, v * ∑ j ∈ Finset.range L, laplace L F i j =
      v * ∑ i ∈ Finset.range L, ∑ j ∈ Finset.range L, laplace L F i j :=
    (Finset.mul_sum _ _ _).symm
  have h3 : ∑ i ∈ Finset.range L, lam / 2 * ∑ j ∈ Finset.range L, gradSq L F i j =
      lam / 2 * ∑ i ∈ Finset.range L, ∑ j ∈ Finset.range L, gradSq L F i j :=
    (Finset.mul_sum _ _ _).symm
  rw [h2, h3, sum_laplace, mul_zero, add_zero]

/-- The grid total of the squared gradient is non-negative. -/
theorem totalGradSq_nonneg (L : ℕ) (F : Field) : 0 ≤ totalGradSq L F := by
  unfold totalGradSq
  refine Finset.sum_nonneg ?_
  intro i _
  refine Finset.sum_nonneg ?_
  intro j _
  unfold gradSq
  positivity

/-- The grid total of the squared gradient vanishes exactly when it
vanishes cellwise. -/
theorem totalGradSq_eq_zero_iff (L : ℕ) (F : Field) :
    totalGradSq L F = 0 ↔
      ∀ i ∈ Finset.range L, ∀ j ∈ Finset.range L, gradSq L F i j = 0 := by
  unfold totalGradSq
  rw [Finset.sum_eq_zero_iff_of_nonneg (fun i _ =>
    Finset.sum_nonneg (fun j _ => by unfold gradSq; positivity))]
  refine forall_congr' ?_
  intro i
  refine imp_congr_right ?_
  intro _
  exact Finset.sum_eq_zero_iff_of_nonneg
    (fun j _ => by unfold gradSq; positivity)

/-- A 1-D sample whose np.gradient values all vanish on an axis of length
at least 2 is constant along that axis. -/
theorem npGrad_flat (L : ℕ) (g : ℕ → ℚ) (hL : 2 ≤ L)
    (h : ∀ i, i < L → npGrad L g i = 0) :
    ∀ i, i < L → g i = g 0 := by
  intro i
  induction i using Nat.strong_induction_on with
  | _ i ih =>
    intro hiL
    match i, ih with
    | 0, _ => rfl
    | 1, _ =>
        have h0 := h 0 (by omega)
        unfold npGrad at h0
        rw [if_pos rfl] at h0
        linarith
    | k + 2, ih =>
        have hk := h (k + 1) (by omega)
        unfold npGrad at hk
        rw [if_neg (by omega : ¬(k + 1 = 0)),
          if_neg (by omega : ¬(k + 1 + 1 = L))] at hk
        simp only [Nat.add_sub_cancel] at hk
        have hg : g (k + 2) = g k := by linarith
        rw [hg]
        exact ih k (by omega) (by omega)

/-- np.gradient of a constant 1-D sample vanishes along an axis of length at
least 2. -/
theorem npGrad_const (L : ℕ) (g : ℕ → ℚ) (c : ℚ) (hL : 2 ≤ L)
    (hg : ∀ p, p < L → g p = c) : ∀ i, i < L → npGrad L g i = 0 := by
  intro i hi
  unfold npGrad
  split_ifs with h1 h2
  · rw [hg 1 (by omega), hg 0 (by omega)]
    ring
  · rw [hg i hi, hg (i - 1) (by omega)]
    ring
  · rw [hg (i + 1) (by omega), hg (i - 1) (by omega)]
    ring

/-- A field whose two discrete gradients vanish at every cell is flat. -/
theorem grads_zero_flat (L : ℕ) (F : Field) (hL : 2 ≤ L)
    (h0 : ∀ i, i < L → ∀ j, j < L → grad0 L F i j = 0)
    (h1 : ∀ i, i < L → ∀ j, j < L → grad1 L F i j = 0) :
    ∀ i, i < L → ∀ j, j < L → F i j = F 0 0 := by
  intro i hi j hj
  have hcol : F i j = F 0 j :=
    npGrad_flat L (fun r => F r j) hL (fun r hr => h0 r hr j hj) i hi
  have hrow : F 0 j = F 0 0 :=
    npGrad_flat L (F 0) hL (fun c hc => h1 0 (by omega) c hc) j hj
  rw [hcol, hrow]

/-- A flat field has vanishing squared gradient at every cell. -/
theorem flat_gradSq_zero (L : ℕ) (F : Field) (hL : 2 ≤ L)
    (hf : ∀ i, i < L → ∀ j, j < L → F i j = F 0 0) :
    ∀ i, i < L → ∀ j, j < L → gradSq L F i j = 0 := by
  intro i hi j hj
  unfold gradSq
  have hg0 : grad0 L F i j = 0 :=
    npGrad_const L (fun r => F r j) (F 0 0) hL (fun p hp => hf p hp j hj) i hi
  have hg1 : grad1 L F i j = 0 :=
    npGrad_const L (F i) (F 0 0) hL (fun p hp => hf i hi p hp) j hj
  rw [hg0, hg1]
  ring

/-- C10: with λ > 0 and zero noise one KPZ step never decreases the total
mass — the Laplacian term sums to zero over the grid while the added
(λ/2)·(squared-gradient) term is non-negative at every cell — and the mass
is unchanged exactly when the field is flat. -/
theorem kpz_mass_monotone (L : ℕ) (F : Field) (v lam : ℚ)
    (hL : 2 ≤ L) (_hv : 0 ≤ v) (hlam : 0 < lam) :
    totalMass L F ≤ totalMass L (stepKPZ L F v lam zeroField) ∧
      (totalMass L (stepKPZ L F v lam zeroField) = totalMass L F ↔
        ∀ i, i < L → ∀ j, j < L → F i j = F 0 0) := by
  have hmass := stepKPZ_mass L F v lam
  have hS := totalGradSq_nonneg L F
  constructor
  · rw [hmass]
    have hnn : 0 ≤ lam / 2 * totalGradSq L F :=
      mul_nonneg (by linarith) hS
    linarith
  · rw [hmass]
    constructor
    · intro h
      have hl2 : lam / 2 * totalGradSq L F = 0 := by linarith
      have hzero : totalGradSq L F = 0 := by
        rcases mul_eq_zero.mp hl2 with h' | h'
        · exfalso
          have : lam = 0 := by linarith
          linarith
        · exact h'
      have hcell := (totalGradSq_eq_zero_iff L F).mp hzero
      have hgrads : ∀ i, i < L → ∀ j, j < L →
          grad0 L F i j = 0 ∧ grad1 L F i j = 0 := by
        intro i hi j hj
        have hij := hcell i (Finset.mem_range.mpr hi) j (Finset.mem_range.mpr hj)
        unfold gradSq at hij
        have hsq0 : grad0 L F i j ^ 2 = 0 := by
          have := sq_nonneg (grad0 L F i j)
          have := sq_nonneg (grad1 L F i j)
          linarith
        have hsq1 : grad1 L F i j ^ 2 = 0 := by
          have := sq_nonneg (grad0 L F i j)
          have := sq_nonneg (grad1 L F i j)
          linarith
        exact ⟨pow_eq_zero_iff (two_ne_zero) |>.mp hsq0,
          pow_eq_zero_iff (two_ne_zero) |>.mp hsq1⟩
      exact grads_zero_flat L F hL
        (fun i hi j hj => (hgrads i hi j hj).1)
        (fun i hi j hj => (hgrads i hi j hj).2)
    · intro hf
      have hzero : totalGradSq L F = 0 := by
        apply (totalGradSq_eq_zero_iff L F).mpr
        intro i hi j hj
        exact flat_gradSq_zero L F hL hf i (Finset.mem_range.mp hi) j
          (Finset.mem_range.mp hj)
      rw [hzero, mul_zero, add_zero]

/-- Witness for C10 at a concrete non-flat field and concrete parameters. -/
theorem kpz_mass_monotone_witness :
    (2 ≤ 2 ∧ (0 : ℚ) ≤ 1 ∧ (0 : ℚ) < 2) ∧
      (totalMass 2 exField ≤ totalMass 2 (stepKPZ 2 exField 1 2 zeroField) ∧
        (totalMass 2 (stepKPZ 2 exField 1 2 zeroField) = totalMass 2 exField ↔
          ∀ i, i < 2 → ∀ j, j < 2 → exField i j = exField 0 0)) :=
  ⟨⟨le_refl 2, by norm_num, by norm_num⟩,
    kpz_mass_monotone 2 exField 1 2 (le_refl 2) (by norm_num) (by norm_num)⟩

end FilmSim
